import Mathlib

/-!
Verification of the PageRank core (`pagerank.py`): the transition model,
the sampling estimator and the iterative estimator, shallowly embedded
over exact rational arithmetic.

Python dictionaries are embedded as association lists (first occurrence
wins, matching unique dict keys), floats as `ℚ`, and exceptions as an
explicit error type carried by `Except`.  The unbounded `while` loop of
`iterate_pagerank` is embedded with explicit fuel; the predicate
`IterateReturns` states that some fuel suffices.  The random source used
by `sample_pagerank` (`random.choice` / `random.choices`) is abstracted
as an oracle of natural numbers choosing an element of the population;
every theorem about the sampler holds for every oracle.
-/

namespace PageRank

abbrev Node := String

/-- A corpus: Python dict mapping each page to the list of pages it links
to (dict values are Python sets; here lists whose well-formedness
includes `Nodup`). -/
abbrev Corpus := List (Node × List Node)

/-- A rank / transition distribution: Python dict from page to number. -/
abbrev Dist := List (Node × ℚ)

/-- The runtime errors this Python code can actually raise. -/
inductive PyErr where
  | keyError (k : Node)
  | zeroDivisionError
  | indexError
  deriving DecidableEq

/-- The keys of a Python dict, in insertion order. -/
def keys (d : List (Node × α)) : List Node := d.map Prod.fst

/-- Lookup of the first entry with key `k` (Python `d.get(k)`). -/
def dictGet (d : List (Node × α)) (k : Node) : Option α :=
  match d with
  | [] => none
  | kv :: rest => if kv.1 = k then some kv.2 else dictGet rest k

/-- Lookup `d[k]` that raises Python's `KeyError` when `k` is absent. -/
def dictGetE (d : List (Node × α)) (k : Node) : Except PyErr α :=
  match dictGet d k with
  | some v => .ok v
  | none => .error (.keyError k)

/-- Update `d[k] = f(d[k])` (so in particular `d[k] += v`) of the entry for
`k` in place, raising `KeyError` when `k` is absent. -/
def dictModE (d : List (Node × α)) (k : Node) (f : α → α) :
    Except PyErr (List (Node × α)) :=
  match d with
  | [] => .error (.keyError k)
  | kv :: rest =>
    if kv.1 = k then .ok ((kv.1, f kv.2) :: rest)
    else (dictModE rest k f).map (fun r => kv :: r)

/-- A Python list comprehension whose body may raise. -/
def mapE (l : List α) (f : α → Except PyErr β) : Except PyErr (List β) :=
  match l with
  | [] => .ok []
  | a :: as => do
    let b ← f a
    let bs ← mapE as f
    pure (b :: bs)

/-- Total accessor for a rank value (only used in statements, always at
keys that are present). -/
def valAt (d : List (Node × α)) [Zero α] (q : Node) : α :=
  (dictGet d q).getD 0

/-- The total mass of a distribution: sum of the dict's values. -/
def mass (d : List (Node × α)) [AddCommMonoid α] : α :=
  (d.map Prod.snd).sum

/-- Graph invariants from §3 of the spec that the corpus loader
guarantees: dict keys are unique, adjacency sets have no duplicates and
refer only to corpus keys. -/
def WellFormed (c : Corpus) : Prop :=
  (keys c).Nodup ∧ ∀ kv ∈ c, kv.2.Nodup ∧ ∀ l ∈ kv.2, l ∈ keys c

instance instDecidableWellFormed (c : Corpus) : Decidable (WellFormed c) := by
  unfold WellFormed
  exact inferInstance

/-- Embedding of `transition_model(corpus, page, damping_factor)` from `pagerank.py`. -/
def transition_model (corpus : Corpus) (page : Node) (damping_factor : ℚ) :
    Except PyErr Dist := do
  let all_pages := keys corpus
  let num_pages : ℚ := all_pages.length
  let links ← dictGetE corpus page
  if links.isEmpty then
    -- navigate to any random page, weight = 1
    pure (all_pages.map (fun p => (p, 1 / num_pages)))
  else do
    -- navigate to any random page, weight = (1 - d)
    let result : Dist := all_pages.map (fun p => (p, (1 - damping_factor) / num_pages))
    -- navigate to a link, weight = d
    let num_links : ℚ := links.length
    links.foldlM
      (fun result link => dictModE result link (fun v => v + damping_factor / num_links))
      result

/-- Embedding of one draw of Python's `random.choice(population)` /
`random.choices(population, weights)`: raises `IndexError` on an empty
population, otherwise returns the population element selected by the
oracle value `idx` (the weighted selection itself is abstracted by the
oracle). -/
def randomChoice (population : List Node) (idx : ℕ) : Except PyErr Node :=
  match population with
  | [] => .error .indexError
  | x :: xs => .ok ((x :: xs).getD (idx % (x :: xs).length) x)

/-- The body of the sampling loop of `sample_pagerank`, run `steps`
times: record a visit to the current page, build the transition model
and its weight list, then draw the next page. -/
def sampleLoop (corpus : Corpus) (damping_factor : ℚ) (oracle : ℕ → ℕ) :
    ℕ → List (Node × ℕ) → Node → ℕ → Except PyErr (List (Node × ℕ))
  | 0, visits, _, _ => .ok visits
  | steps + 1, visits, page, i => do
    -- visit the page
    let visits ← dictModE visits page (fun v => v + 1)
    -- our model
    let tm ← transition_model corpus page damping_factor
    -- just the weights from each page
    let _weights ← mapE (keys corpus) (fun p => dictGetE tm p)
    -- pick a new random page
    let page ← randomChoice (keys corpus) (oracle i)
    sampleLoop corpus damping_factor oracle steps visits page (i + 1)

/-- Embedding of `sample_pagerank(corpus, damping_factor, n)` from `pagerank.py`,
with the random source abstracted as `oracle`. -/
def sample_pagerank (corpus : Corpus) (damping_factor : ℚ) (n : ℤ)
    (oracle : ℕ → ℕ) : Except PyErr Dist := do
  let all_pages := keys corpus
  -- how many times we visit each page
  let visits0 : List (Node × ℕ) := all_pages.map (fun p => (p, 0))
  -- start on a random page
  let start ← randomChoice all_pages (oracle 0)
  let visits ← sampleLoop corpus damping_factor oracle n.toNat visits0 start 1
  -- {page: visits[page] / n for page in all_pages}; n = 0 raises ZeroDivisionError
  if n = 0 then .error .zeroDivisionError
  else mapE all_pages (fun p => do
    let c ← dictGetE visits p
    pure (p, (c : ℚ) / (n : ℚ)))

/-- Embedding of `greatest_difference(ranks_a, ranks_b)` from `pagerank.py`. -/
def greatest_difference (ranks_a ranks_b : Dist) : Except PyErr ℚ :=
  (keys ranks_a).foldlM
    (fun result page => do
      let va ← dictGetE ranks_a page
      let vb ← dictGetE ranks_b page
      pure (max result |va - vb|))
    0

/-- The body of the per-page loop of `iterate_pagerank_iteration`. -/
def iterate_body (corpus : Corpus) (damping_factor : ℚ) (previous_ranks : Dist)
    (updated_ranks : Dist) (page : Node) : Except PyErr Dist := do
  let all_pages := keys corpus
  let num_pages : ℚ := all_pages.length
  let links ← dictGetE corpus page
  let rank ← dictGetE previous_ranks page
  if links.isEmpty then
    -- contribution from each page, per the formula.
    let contribution := damping_factor * (rank / num_pages)
    all_pages.foldlM (fun r q => dictModE r q (fun v => v + contribution)) updated_ranks
  else
    -- contribution from each link, per the formula.
    let contribution := damping_factor * (rank / (links.length : ℚ))
    links.foldlM (fun r link => dictModE r link (fun v => v + contribution)) updated_ranks

/-- Embedding of `iterate_pagerank_iteration(corpus, damping_factor, previous_ranks)`
from `pagerank.py`. -/
def iterate_pagerank_iteration (corpus : Corpus) (damping_factor : ℚ)
    (previous_ranks : Dist) : Except PyErr Dist :=
  let all_pages := keys corpus
  let num_pages : ℚ := all_pages.length
  all_pages.foldlM (iterate_body corpus damping_factor previous_ranks)
    (all_pages.map (fun p => (p, (1 - damping_factor) / num_pages)))

/-- The initial ranks of `iterate_pagerank`: every page starts at `1/N`. -/
def initial_ranks (corpus : Corpus) : Dist :=
  (keys corpus).map (fun p => (p, 1 / ((keys corpus).length : ℚ)))

/-- The `while` loop of `iterate_pagerank`, with explicit fuel:
`.ok none` means the loop was still running when the fuel ran out. -/
def iterateLoop (corpus : Corpus) (damping_factor : ℚ) :
    Dist → ℕ → Except PyErr (Option Dist)
  | _, 0 => .ok none
  | page_ranks, fuel + 1 => do
    let updated_ranks ← iterate_pagerank_iteration corpus damping_factor page_ranks
    let difference ← greatest_difference page_ranks updated_ranks
    if difference < 1 / 1000 then pure (some updated_ranks)
    else iterateLoop corpus damping_factor updated_ranks fuel

/-- Embedding of `iterate_pagerank(corpus, damping_factor)` from `pagerank.py`,
with explicit fuel for the unbounded loop. -/
def iterate_pagerank (corpus : Corpus) (damping_factor : ℚ) (fuel : ℕ) :
    Except PyErr (Option Dist) :=
  iterateLoop corpus damping_factor (initial_ranks corpus) fuel

/-- Proposition that `iterate_pagerank` returns `r`: some amount of fuel makes the loop
terminate with `r`. -/
def IterateReturns (corpus : Corpus) (damping_factor : ℚ) (r : Dist) : Prop :=
  ∃ fuel, iterate_pagerank corpus damping_factor fuel = .ok (some r)

/-- The rank dictionaries that `iterate_pagerank` ever holds: the initial
one and everything reachable from it by update steps. -/
inductive ReachableRanks (corpus : Corpus) (damping_factor : ℚ) : Dist → Prop where
  | init : ReachableRanks corpus damping_factor (initial_ranks corpus)
  | step : ReachableRanks corpus damping_factor ranks →
      iterate_pagerank_iteration corpus damping_factor ranks = .ok updated →
      ReachableRanks corpus damping_factor updated

/-- The loop of §4.3 of the spec, as a big-step relation: from `ranks`,
one update step is taken; the loop stops and returns the post-step
dictionary exactly when the greatest difference is strictly below
`1/1000`, and otherwise continues from the updated dictionary. -/
inductive IterateSpec (corpus : Corpus) (damping_factor : ℚ) : Dist → Dist → Prop where
  | done : iterate_pagerank_iteration corpus damping_factor ranks = .ok updated →
      greatest_difference ranks updated = .ok difference →
      difference < 1 / 1000 →
      IterateSpec corpus damping_factor ranks updated
  | more : iterate_pagerank_iteration corpus damping_factor ranks = .ok updated →
      greatest_difference ranks updated = .ok difference →
      ¬ difference < 1 / 1000 →
      IterateSpec corpus damping_factor updated final →
      IterateSpec corpus damping_factor ranks final

/-! ### Basic lemmas about the dictionary embedding -/

theorem ok_bind {α β : Type} (a : α) (f : α → Except PyErr β) :
    (Except.ok a >>= f) = f a := rfl

theorem error_bind {α β : Type} (e : PyErr) (f : α → Except PyErr β) :
    ((Except.error e : Except PyErr α) >>= f) = .error e := rfl

theorem pure_eq_ok {α : Type} (a : α) : (pure a : Except PyErr α) = .ok a := rfl

theorem dictGet_isSome_iff_mem {α : Type} (d : List (Node × α)) (k : Node) :
    (∃ v, dictGet d k = some v) ↔ k ∈ keys d := by
  induction d with
  | nil => simp [dictGet, keys]
  | cons kv rest ih =>
    by_cases h : kv.1 = k
    · simp [dictGet, h, keys]
    · simp only [dictGet, if_neg h, keys, List.map_cons, List.mem_cons]
      rw [show (∃ v, dictGet rest k = some v) ↔ k ∈ keys rest from ih]
      constructor
      · exact fun hm => Or.inr hm
      · rintro (hk | hm)
        · exact absurd hk.symm h
        · exact hm

theorem dictGet_eq_none_of_not_mem {α : Type} {d : List (Node × α)} {k : Node}
    (h : k ∉ keys d) : dictGet d k = none := by
  cases hg : dictGet d k with
  | none => rfl
  | some v => exact absurd ((dictGet_isSome_iff_mem d k).mp ⟨v, hg⟩) h

theorem mem_of_dictGet_some {α : Type} {d : List (Node × α)} {k : Node} {v : α}
    (h : dictGet d k = some v) : k ∈ keys d :=
  (dictGet_isSome_iff_mem d k).mp ⟨v, h⟩

theorem dictGet_mem {α : Type} {d : List (Node × α)} {k : Node} {v : α}
    (h : dictGet d k = some v) : (k, v) ∈ d := by
  induction d with
  | nil => simp [dictGet] at h
  | cons kv rest ih =>
    obtain ⟨k1, v1⟩ := kv
    simp only [dictGet] at h
    by_cases hk : k1 = k
    · rw [if_pos hk] at h
      injection h with h
      subst hk
      subst h
      exact List.mem_cons_self _ _
    · rw [if_neg hk] at h
      exact List.mem_cons_of_mem _ (ih h)

theorem dictGet_map_self {α : Type} (l : List Node) (g : Node → α) (q : Node) :
    dictGet (l.map (fun p => (p, g p))) q = if q ∈ l then some (g q) else none := by
  induction l with
  | nil => simp [dictGet]
  | cons p rest ih =>
    simp only [List.map_cons, dictGet, List.mem_cons]
    by_cases h : p = q
    · subst h
      simp
    · rw [if_neg h, ih]
      by_cases hq : q ∈ rest
      · simp [hq]
      · simp only [if_neg hq, if_neg (show ¬(q = p ∨ q ∈ rest) from by
          rintro (hqp | hqr)
          · exact h hqp.symm
          · exact hq hqr)]

theorem keys_map_self {α : Type} (l : List Node) (g : Node → α) :
    keys (l.map (fun p => (p, g p))) = l := by
  induction l with
  | nil => rfl
  | cons p rest ih =>
    simpa [keys] using ih

theorem dictModE_spec {α : Type} (d : List (Node × α)) (k : Node) (f : α → α)
    (hk : k ∈ keys d) :
    ∃ d2, dictModE d k f = .ok d2 ∧ keys d2 = keys d ∧
      (∀ q, dictGet d2 q = if q = k then (dictGet d k).map f else dictGet d q) := by
  induction d with
  | nil => simp [keys] at hk
  | cons kv rest ih =>
    by_cases h : kv.1 = k
    · refine ⟨(kv.1, f kv.2) :: rest, by simp [dictModE, h], by simp [keys], ?_⟩
      intro q
      by_cases hq : q = k
      · subst hq
        simp [dictGet, h]
      · have h1 : ¬ kv.1 = q := by
          rw [h]
          exact fun hc => hq hc.symm
        simp [dictGet, h1, hq]
    · have hk2 : k ∈ keys rest := by
        simp only [keys, List.map_cons, List.mem_cons] at hk
        rcases hk with h1 | h1
        · exact absurd h1.symm h
        · exact h1
      obtain ⟨r2, hr2, hkeys2, hget2⟩ := ih hk2
      refine ⟨kv :: r2, ?_, ?_, ?_⟩
      · simp [dictModE, h, hr2, Except.map]
      · simp only [keys, List.map_cons]
        rw [show List.map Prod.fst r2 = keys r2 from rfl, hkeys2]
        rfl
      · intro q
        by_cases hq : q = k
        · subst hq
          simp [dictGet, h, hget2]
        · simp only [dictGet, hget2 q, if_neg hq]

theorem dictModE_mass {α : Type} [AddCommMonoid α] {d d2 : List (Node × α)} {k : Node} {c : α}
    (h : dictModE d k (fun v => v + c) = .ok d2) :
    mass d2 = mass d + c := by
  induction d generalizing d2 with
  | nil => simp [dictModE] at h
  | cons kv rest ih =>
    by_cases hk : kv.1 = k
    · simp only [dictModE, if_pos hk] at h
      injection h with h
      subst h
      simp only [mass, List.map_cons, List.sum_cons]
      rw [add_assoc, add_comm c, ← add_assoc]
    · simp only [dictModE, if_neg hk] at h
      cases hrec : dictModE rest k (fun v => v + c) with
      | error e =>
        rw [hrec] at h
        simp [Except.map] at h
      | ok r2 =>
        rw [hrec] at h
        simp only [Except.map] at h
        injection h with h
        subst h
        simp only [mass, List.map_cons, List.sum_cons] at ih ⊢
        rw [ih hrec, add_assoc]

theorem foldl_dictModE_add {L : List Node} {d : List (Node × ℚ)} {c : ℚ}
    (hL : ∀ l ∈ L, l ∈ keys d) :
    ∃ d2, L.foldlM (fun r link => dictModE r link (fun v => v + c)) d = .ok d2 ∧
      keys d2 = keys d ∧
      (∀ q, dictGet d2 q = (dictGet d q).map (fun v => v + (L.count q : ℚ) * c)) ∧
      mass d2 = mass d + (L.length : ℚ) * c := by
  induction L generalizing d with
  | nil =>
    refine ⟨d, rfl, rfl, ?_, by simp⟩
    intro q
    cases h : dictGet d q <;> simp
  | cons l L ih =>
    obtain ⟨d1, h1, hkeys1, hget1⟩ := dictModE_spec d l _ (hL l (List.mem_cons_self l L))
    have hmass1 : mass d1 = mass d + c := dictModE_mass h1
    have hL1 : ∀ x ∈ L, x ∈ keys d1 := fun x hx => by
      rw [hkeys1]
      exact hL x (List.mem_cons_of_mem l hx)
    obtain ⟨d2, h2, hkeys2, hget2, hmass2⟩ := ih hL1
    refine ⟨d2, ?_, hkeys2.trans hkeys1, ?_, ?_⟩
    · rw [List.foldlM_cons, h1, ok_bind, h2]
    · intro q
      rw [hget2 q, hget1 q]
      by_cases hq : q = l
      · subst hq
        obtain ⟨v, hv⟩ := (dictGet_isSome_iff_mem d q).mpr (hL q (List.mem_cons_self q L))
        rw [if_pos rfl, hv, List.count_cons_self]
        simp only [Option.map]
        congr 1
        push_cast
        ring
      · rw [if_neg hq, List.count_cons_of_ne hq]
    · rw [hmass2, hmass1, List.length_cons]
      push_cast
      ring

theorem mapE_ok_of_forall {α β : Type} {l : List α} {f : α → Except PyErr β} (g : α → β)
    (h : ∀ a ∈ l, f a = .ok (g a)) :
    mapE l f = .ok (l.map g) := by
  induction l with
  | nil => rfl
  | cons a as ih =>
    simp only [mapE, h a (List.mem_cons_self a as), ok_bind,
      ih (fun x hx => h x (List.mem_cons_of_mem a hx)), pure_eq_ok, List.map_cons]

theorem mapE_ok_exists {α β : Type} {l : List α} {f : α → Except PyErr β}
    (h : ∀ a ∈ l, ∃ b, f a = .ok b) :
    ∃ bs, mapE l f = .ok bs := by
  induction l with
  | nil => exact ⟨[], rfl⟩
  | cons a as ih =>
    obtain ⟨b, hb⟩ := h a (List.mem_cons_self a as)
    obtain ⟨bs, hbs⟩ := ih (fun x hx => h x (List.mem_cons_of_mem a hx))
    exact ⟨b :: bs, by simp only [mapE, hb, ok_bind, hbs, pure_eq_ok]⟩

theorem mass_map_fn {α : Type} [AddCommMonoid α] (l : List Node) (g : Node → α) :
    mass (l.map (fun p => (p, g p))) = (l.map g).sum := by
  induction l with
  | nil => simp [mass]
  | cons p rest ih =>
    simp only [mass, List.map_cons, List.sum_cons] at ih ⊢
    rw [ih]

theorem sum_valAt_keys {α : Type} [AddCommMonoid α] (d : List (Node × α))
    (hnd : (keys d).Nodup) :
    ((keys d).map (fun q => valAt d q)).sum = mass d := by
  induction d with
  | nil => simp [keys, mass]
  | cons kv rest ih =>
    have hnd2 : (kv.1 :: keys rest).Nodup := hnd
    have hcons := List.nodup_cons.mp hnd2
    simp only [keys, List.map_cons, List.sum_cons, mass]
    have h1 : valAt (kv :: rest) kv.1 = kv.2 := by simp [valAt, dictGet]
    have h2 : (List.map Prod.fst rest).map (fun q => valAt (kv :: rest) q) =
        (List.map Prod.fst rest).map (fun q => valAt rest q) := by
      apply List.map_congr_left
      intro q hq
      have hne : ¬ kv.1 = q := fun hc => hcons.1 (by rw [hc]; exact hq)
      simp [valAt, dictGet, hne]
    rw [h1, h2]
    have hrec := ih hcons.2
    simp only [keys, mass] at hrec
    rw [hrec]

theorem sum_map_const_rat (l : List Node) (a : ℚ) :
    (l.map (fun _ => a)).sum = (l.length : ℚ) * a := by
  induction l with
  | nil => simp
  | cons x xs ih =>
    simp only [List.map_cons, List.sum_cons, List.length_cons, ih]
    push_cast
    ring

/-- Success and value of `transition_model` at a present page whose links
all lie in the corpus (the multiplicity-weighted form; under `Nodup`
links the count is an indicator). -/
theorem transition_model_ok (corpus : Corpus) (page : Node) (damping_factor : ℚ)
    (links : List Node) (hpl : dictGet corpus page = some links)
    (hsub : ∀ l ∈ links, l ∈ keys corpus) :
    ∃ t, transition_model corpus page damping_factor = .ok t ∧ keys t = keys corpus ∧
      ∀ q, dictGet t q =
        if q ∈ keys corpus then
          some (if links.isEmpty then 1 / ((keys corpus).length : ℚ)
            else (1 - damping_factor) / ((keys corpus).length : ℚ) +
              (links.count q : ℚ) * (damping_factor / (links.length : ℚ)))
        else none := by
  have hE : dictGetE corpus page = .ok links := by simp [dictGetE, hpl]
  cases hemp : links.isEmpty
  case true =>
    refine ⟨(keys corpus).map (fun p => (p, 1 / ((keys corpus).length : ℚ))), ?_,
      keys_map_self _ _, ?_⟩
    · simp only [transition_model, hE, ok_bind, hemp, if_true, pure_eq_ok]
    · intro q
      rw [dictGet_map_self]
      by_cases hq : q ∈ keys corpus <;> simp [hq, hemp]
  case false =>
    have hL : ∀ l ∈ links, l ∈ keys ((keys corpus).map
        (fun p => (p, (1 - damping_factor) / ((keys corpus).length : ℚ)))) := by
      rw [keys_map_self]
      exact hsub
    obtain ⟨t, ht, hkeys, hget, _⟩ :=
      foldl_dictModE_add (c := damping_factor / (links.length : ℚ)) hL
    refine ⟨t, ?_, hkeys.trans (keys_map_self _ _), ?_⟩
    · simp only [transition_model, hE, ok_bind, hemp, Bool.false_eq_true, if_false]
      exact ht
    · intro q
      rw [hget q, dictGet_map_self]
      by_cases hq : q ∈ keys corpus
      · simp [hq, hemp]
      · simp [hq]

/-- Per-page amount that one update step of the iterative estimator adds
on top of the base value, as a function of the source page `p` and the
target `q` (multiplicity-weighted so that no `Nodup` assumption is
needed at this level). -/
def pageContribution (corpus : Corpus) (previous_ranks : Dist)
    (damping_factor : ℚ) (p q : Node) : ℚ :=
  match dictGet corpus p, dictGet previous_ranks p with
  | some links, some rank =>
    if links.isEmpty then
      ((keys corpus).count q : ℚ) * (damping_factor * (rank / ((keys corpus).length : ℚ)))
    else (links.count q : ℚ) * (damping_factor * (rank / (links.length : ℚ)))
  | _, _ => 0

theorem iterate_body_spec (corpus : Corpus) (damping_factor : ℚ)
    (previous_ranks upd : Dist) (page : Node)
    (links : List Node) (hpl : dictGet corpus page = some links)
    (rank : ℚ) (hpr : dictGet previous_ranks page = some rank)
    (hkeys : keys upd = keys corpus)
    (hsub : ∀ l ∈ links, l ∈ keys corpus) :
    ∃ upd2, iterate_body corpus damping_factor previous_ranks upd page = .ok upd2 ∧
      keys upd2 = keys corpus ∧
      (∀ q, dictGet upd2 q = (dictGet upd q).map
        (fun v => v + pageContribution corpus previous_ranks damping_factor page q)) ∧
      (corpus ≠ [] → mass upd2 = mass upd + damping_factor * rank) := by
  have hEc : dictGetE corpus page = .ok links := by simp [dictGetE, hpl]
  have hEp : dictGetE previous_ranks page = .ok rank := by simp [dictGetE, hpr]
  cases hemp : links.isEmpty
  case false =>
    have hL : ∀ l ∈ links, l ∈ keys upd := fun l hl => by
      rw [hkeys]
      exact hsub l hl
    obtain ⟨u2, h2, hk2, hg2, hm2⟩ :=
      foldl_dictModE_add (c := damping_factor * (rank / (links.length : ℚ))) hL
    refine ⟨u2, ?_, hk2.trans hkeys, ?_, ?_⟩
    · simp only [iterate_body, hEc, ok_bind, hEp, hemp, Bool.false_eq_true, if_false]
      exact h2
    · intro q
      rw [hg2 q]
      have hpc : pageContribution corpus previous_ranks damping_factor page q =
          (links.count q : ℚ) * (damping_factor * (rank / (links.length : ℚ))) := by
        simp [pageContribution, hpl, hpr, hemp]
      rw [hpc]
    · intro _
      rw [hm2]
      have hlen : (links.length : ℚ) ≠ 0 := by
        cases links with
        | nil => simp [List.isEmpty] at hemp
        | cons x xs =>
          simp only [List.length_cons]
          push_cast
          positivity
      congr 1
      field_simp
  case true =>
    have hL : ∀ l ∈ keys corpus, l ∈ keys upd := fun l hl => by
      rw [hkeys]
      exact hl
    obtain ⟨u2, h2, hk2, hg2, hm2⟩ :=
      foldl_dictModE_add (c := damping_factor * (rank / ((keys corpus).length : ℚ))) hL
    refine ⟨u2, ?_, hk2.trans hkeys, ?_, ?_⟩
    · simp only [iterate_body, hEc, ok_bind, hEp, hemp, if_true]
      exact h2
    · intro q
      rw [hg2 q]
      have hpc : pageContribution corpus previous_ranks damping_factor page q =
          ((keys corpus).count q : ℚ) *
            (damping_factor * (rank / ((keys corpus).length : ℚ))) := by
        simp [pageContribution, hpl, hpr, hemp]
      rw [hpc]
    · intro hne
      rw [hm2]
      have hN : ((keys corpus).length : ℚ) ≠ 0 := by
        cases corpus with
        | nil => exact absurd rfl hne
        | cons kv rest =>
          simp only [keys, List.length_map, List.length_cons]
          push_cast
          positivity
      congr 1
      field_simp

theorem foldl_iterate_body_spec (corpus : Corpus) (damping_factor : ℚ)
    (previous_ranks : Dist) (P : List Node) (acc : Dist)
    (hP : ∀ p ∈ P, p ∈ keys corpus)
    (hprev : ∀ p ∈ P, p ∈ keys previous_ranks)
    (hsub : ∀ kv ∈ corpus, ∀ l ∈ kv.2, l ∈ keys corpus)
    (hkeys : keys acc = keys corpus) :
    ∃ r, P.foldlM (iterate_body corpus damping_factor previous_ranks) acc = .ok r ∧
      keys r = keys corpus ∧
      (∀ q, dictGet r q = (dictGet acc q).map (fun v =>
        v + (P.map (fun p => pageContribution corpus previous_ranks damping_factor p q)).sum)) ∧
      (corpus ≠ [] → mass r = mass acc +
        damping_factor * (P.map (fun p => valAt previous_ranks p)).sum) := by
  induction P generalizing acc with
  | nil =>
    refine ⟨acc, rfl, hkeys, ?_, fun _ => by simp⟩
    intro q
    cases h : dictGet acc q <;> simp
  | cons p P ih =>
    obtain ⟨links, hpl⟩ :=
      (dictGet_isSome_iff_mem corpus p).mpr (hP p (List.mem_cons_self p P))
    obtain ⟨rank, hpr⟩ :=
      (dictGet_isSome_iff_mem previous_ranks p).mpr (hprev p (List.mem_cons_self p P))
    have hsubp : ∀ l ∈ links, l ∈ keys corpus :=
      fun l hl => hsub (p, links) (dictGet_mem hpl) l hl
    obtain ⟨u1, h1, hk1, hg1, hm1⟩ := iterate_body_spec corpus damping_factor
      previous_ranks acc p links hpl rank hpr hkeys hsubp
    obtain ⟨r, h2, hk2, hg2, hm2⟩ := ih u1
      (fun x hx => hP x (List.mem_cons_of_mem p hx))
      (fun x hx => hprev x (List.mem_cons_of_mem p hx)) hk1
    refine ⟨r, ?_, hk2, ?_, ?_⟩
    · rw [List.foldlM_cons, h1, ok_bind, h2]
    · intro q
      rw [hg2 q, hg1 q]
      cases h : dictGet acc q with
      | none => simp
      | some v =>
        simp only [Option.map, List.map_cons, List.sum_cons]
        congr 1
        ring
    · intro hne
      rw [hm2 hne, hm1 hne, List.map_cons, List.sum_cons]
      have hv : valAt previous_ranks p = rank := by simp [valAt, hpr]
      rw [hv]
      ring

/-- Success, keys, pointwise value and mass of one full update step of
the iterative estimator. -/
theorem iterate_iteration_spec (corpus : Corpus) (damping_factor : ℚ)
    (previous_ranks : Dist)
    (hsub : ∀ kv ∈ corpus, ∀ l ∈ kv.2, l ∈ keys corpus)
    (hprev : ∀ p ∈ keys corpus, p ∈ keys previous_ranks) :
    ∃ r, iterate_pagerank_iteration corpus damping_factor previous_ranks = .ok r ∧
      keys r = keys corpus ∧
      (∀ q ∈ keys corpus, dictGet r q =
        some ((1 - damping_factor) / ((keys corpus).length : ℚ) +
          ((keys corpus).map
            (fun p => pageContribution corpus previous_ranks damping_factor p q)).sum)) ∧
      (corpus ≠ [] → mass r = (1 - damping_factor) +
        damping_factor * ((keys corpus).map (fun p => valAt previous_ranks p)).sum) := by
  have hkeys0 : keys ((keys corpus).map
      (fun p => (p, (1 - damping_factor) / ((keys corpus).length : ℚ)))) = keys corpus :=
    keys_map_self _ _
  obtain ⟨r, hr, hk, hg, hm⟩ := foldl_iterate_body_spec corpus damping_factor
    previous_ranks (keys corpus) _ (fun p hp => hp) hprev hsub hkeys0
  refine ⟨r, hr, hk, ?_, ?_⟩
  · intro q hq
    rw [hg q, dictGet_map_self]
    simp [hq]
  · intro hne
    rw [hm hne]
    congr 1
    have hconst : mass ((keys corpus).map
        (fun p => (p, (1 - damping_factor) / ((keys corpus).length : ℚ)))) =
        ((keys corpus).length : ℚ) * ((1 - damping_factor) / ((keys corpus).length : ℚ)) := by
      rw [mass_map_fn]
      exact sum_map_const_rat _ _
    rw [hconst]
    have hN : ((keys corpus).length : ℚ) ≠ 0 := by
      cases corpus with
      | nil => exact absurd rfl hne
      | cons kv rest =>
        simp only [keys, List.length_map, List.length_cons]
        push_cast
        positivity
    rw [mul_comm, div_mul_cancel₀ _ hN]

theorem reachable_keys (corpus : Corpus) (damping_factor : ℚ)
    (hsub : ∀ kv ∈ corpus, ∀ l ∈ kv.2, l ∈ keys corpus) :
    ∀ ranks, ReachableRanks corpus damping_factor ranks → keys ranks = keys corpus := by
  intro ranks h
  induction h with
  | init => exact keys_map_self _ _
  | step h1 h2 ih =>
    obtain ⟨r, hr, hk, _, _⟩ := iterate_iteration_spec corpus damping_factor _ hsub
      (fun p hp => by rw [ih]; exact hp)
    rw [h2] at hr
    injection hr with hr
    rw [hr]
    exact hk

theorem reachable_mass (corpus : Corpus) (damping_factor : ℚ)
    (hwf : WellFormed corpus) (hne : corpus ≠ []) :
    ∀ ranks, ReachableRanks corpus damping_factor ranks → mass ranks = 1 := by
  intro ranks h
  induction h with
  | init =>
    have hN : ((keys corpus).length : ℚ) ≠ 0 := by
      cases corpus with
      | nil => exact absurd rfl hne
      | cons kv rest =>
        simp only [keys, List.length_map, List.length_cons]
        push_cast
        positivity
    rw [show initial_ranks corpus =
        (keys corpus).map (fun p => (p, 1 / ((keys corpus).length : ℚ))) from rfl,
      mass_map_fn, sum_map_const_rat, mul_one_div, div_self hN]
  | @step prev updated h1 h2 ih =>
    have hkeys := reachable_keys corpus damping_factor
      (fun kv hkv => (hwf.2 kv hkv).2) _ h1
    obtain ⟨r, hr, hk, hg, hm⟩ := iterate_iteration_spec corpus damping_factor _
      (fun kv hkv => (hwf.2 kv hkv).2) (fun p hp => by rw [hkeys]; exact hp)
    rw [h2] at hr
    injection hr with hr
    rw [hr, hm hne]
    have hsum : ((keys corpus).map (fun p => valAt prev p)).sum = 1 := by
      rw [show keys corpus = keys prev from hkeys.symm,
        sum_valAt_keys prev (by rw [hkeys]; exact hwf.1)]
      exact ih
    rw [hsum]
    ring

theorem pageContribution_weight (corpus : Corpus) (damping_factor : ℚ) (p q : Node)
    (hpmem : p ∈ keys corpus) :
    ∃ w : ℚ, 0 ≤ w ∧ w ≤ 1 ∧
      ∀ ranks : Dist, pageContribution corpus ranks damping_factor p q =
        w * (damping_factor * valAt ranks p) := by
  obtain ⟨links, hpl⟩ := (dictGet_isSome_iff_mem corpus p).mpr hpmem
  have hne : corpus ≠ [] := by
    intro hc
    rw [hc] at hpl
    simp [dictGet] at hpl
  have hN : (0 : ℚ) < ((keys corpus).length : ℚ) := by
    cases corpus with
    | nil => exact absurd rfl hne
    | cons kv rest =>
      simp only [keys, List.length_map, List.length_cons]
      push_cast
      positivity
  cases hemp : links.isEmpty
  case true =>
    refine ⟨((keys corpus).count q : ℚ) / ((keys corpus).length : ℚ), ?_, ?_, ?_⟩
    · positivity
    · rw [div_le_one hN]
      exact_mod_cast List.count_le_length q (keys corpus)
    · intro ranks
      cases hr : dictGet ranks p with
      | none => simp [pageContribution, hpl, hr, valAt]
      | some rank =>
        simp only [pageContribution, hpl, hr, valAt, Option.getD_some]
        rw [if_pos hemp]
        field_simp
  case false =>
    have hL : (0 : ℚ) < (links.length : ℚ) := by
      cases links with
      | nil => simp [List.isEmpty] at hemp
      | cons x xs =>
        simp only [List.length_cons]
        push_cast
        positivity
    refine ⟨(links.count q : ℚ) / (links.length : ℚ), ?_, ?_, ?_⟩
    · positivity
    · rw [div_le_one hL]
      exact_mod_cast List.count_le_length q links
    · intro ranks
      cases hr : dictGet ranks p with
      | none => simp [pageContribution, hpl, hr, valAt]
      | some rank =>
        simp only [pageContribution, hpl, hr, valAt, Option.getD_some]
        rw [if_neg (by rw [hemp]; exact Bool.false_ne_true)]
        field_simp

theorem pageContribution_nonneg (corpus : Corpus) (previous_ranks : Dist)
    (damping_factor : ℚ) (p q : Node)
    (hd0 : 0 ≤ damping_factor)
    (hrank : 0 ≤ valAt previous_ranks p) :
    0 ≤ pageContribution corpus previous_ranks damping_factor p q := by
  by_cases hpmem : p ∈ keys corpus
  · obtain ⟨w, hw0, _, hw⟩ := pageContribution_weight corpus damping_factor p q hpmem
    rw [hw]
    positivity
  · have : dictGet corpus p = none := dictGet_eq_none_of_not_mem hpmem
    simp [pageContribution, this]

theorem greatest_difference_fold_le (ranks_a ranks_b : Dist) :
    ∀ (l : List Node) (acc m : ℚ),
    l.foldlM (fun result page => do
      let va ← dictGetE ranks_a page
      let vb ← dictGetE ranks_b page
      pure (max result |va - vb|)) acc = .ok m →
    acc ≤ m ∧ ∀ p ∈ l, |valAt ranks_a p - valAt ranks_b p| ≤ m := by
  intro l
  induction l with
  | nil =>
    intro acc m h
    simp only [List.foldlM_nil] at h
    injection h with h
    subst h
    exact ⟨le_refl _, by simp⟩
  | cons p l ih =>
    intro acc m h
    rw [List.foldlM_cons] at h
    cases hva : dictGet ranks_a p with
    | none =>
      rw [show dictGetE ranks_a p >>= _ = _ from rfl] at h
      simp only [dictGetE, hva, error_bind] at h
      exact absurd h (by simp)
    | some va =>
      simp only [dictGetE, hva, ok_bind] at h
      cases hvb : dictGet ranks_b p with
      | none =>
        simp only [hvb, error_bind] at h
        exact absurd h (by simp)
      | some vb =>
        simp only [hvb, ok_bind, pure_eq_ok] at h
        obtain ⟨hacc, hall⟩ := ih _ m h
        refine ⟨le_trans (le_max_left _ _) hacc, ?_⟩
        intro x hx
        rcases List.mem_cons.mp hx with hx | hx
        · subst hx
          have : |va - vb| ≤ m := le_trans (le_max_right acc _) hacc
          simpa [valAt, hva, hvb] using this
        · exact hall x hx

theorem greatest_difference_le (ranks_a ranks_b : Dist) (m : ℚ)
    (h : greatest_difference ranks_a ranks_b = .ok m) :
    0 ≤ m ∧ ∀ p ∈ keys ranks_a, |valAt ranks_a p - valAt ranks_b p| ≤ m := by
  have := greatest_difference_fold_le ranks_a ranks_b (keys ranks_a) 0 m h
  exact ⟨this.1, this.2⟩

theorem iterateLoop_sound (corpus : Corpus) (damping_factor : ℚ) :
    ∀ (fuel : ℕ) (ranks r : Dist),
      iterateLoop corpus damping_factor ranks fuel = .ok (some r) →
      ReachableRanks corpus damping_factor ranks →
      ReachableRanks corpus damping_factor r ∧
      ∃ prev difference, ReachableRanks corpus damping_factor prev ∧
        iterate_pagerank_iteration corpus damping_factor prev = .ok r ∧
        greatest_difference prev r = .ok difference ∧ difference < 1 / 1000 := by
  intro fuel
  induction fuel with
  | zero =>
    intro ranks r h
    simp [iterateLoop] at h
  | succ fuel ih =>
    intro ranks r h hreach
    simp only [iterateLoop] at h
    cases hit : iterate_pagerank_iteration corpus damping_factor ranks with
    | error e =>
      rw [hit, error_bind] at h
      exact absurd h (by simp)
    | ok upd =>
      rw [hit, ok_bind] at h
      cases hgd : greatest_difference ranks upd with
      | error e =>
        rw [hgd, error_bind] at h
        exact absurd h (by simp)
      | ok difference =>
        rw [hgd, ok_bind] at h
        by_cases hm : difference < 1 / 1000
        · rw [if_pos hm, pure_eq_ok] at h
          injection h with h
          injection h with h
          subst h
          exact ⟨.step hreach hit, ranks, difference, hreach, hit, hgd, hm⟩
        · rw [if_neg hm] at h
          exact ih upd r h (.step hreach hit)

theorem iterateLoop_of_spec (corpus : Corpus) (damping_factor : ℚ) :
    ∀ ranks r : Dist, IterateSpec corpus damping_factor ranks r →
      ∃ fuel, iterateLoop corpus damping_factor ranks fuel = .ok (some r) := by
  intro ranks r h
  induction h with
  | done hit hgd hm =>
    exact ⟨1, by simp only [iterateLoop, hit, ok_bind, hgd, if_pos hm, pure_eq_ok]⟩
  | more hit hgd hm _ ih =>
    obtain ⟨fuel, hfuel⟩ := ih
    exact ⟨fuel + 1, by simp only [iterateLoop, hit, ok_bind, hgd, if_neg hm, hfuel]⟩

theorem iterateLoop_to_spec (corpus : Corpus) (damping_factor : ℚ) :
    ∀ (fuel : ℕ) (ranks r : Dist),
      iterateLoop corpus damping_factor ranks fuel = .ok (some r) →
      IterateSpec corpus damping_factor ranks r := by
  intro fuel
  induction fuel with
  | zero =>
    intro ranks r h
    simp [iterateLoop] at h
  | succ fuel ih =>
    intro ranks r h
    simp only [iterateLoop] at h
    cases hit : iterate_pagerank_iteration corpus damping_factor ranks with
    | error e =>
      rw [hit, error_bind] at h
      exact absurd h (by simp)
    | ok upd =>
      rw [hit, ok_bind] at h
      cases hgd : greatest_difference ranks upd with
      | error e =>
        rw [hgd, error_bind] at h
        exact absurd h (by simp)
      | ok difference =>
        rw [hgd, ok_bind] at h
        by_cases hm : difference < 1 / 1000
        · rw [if_pos hm, pure_eq_ok] at h
          injection h with h
          injection h with h
          subst h
          exact .done hit hgd hm
        · rw [if_neg hm] at h
          exact .more hit hgd hm (ih upd r h)

theorem reachable_lower_bound (corpus : Corpus) (damping_factor : ℚ)
    (hwf : WellFormed corpus) (hne : corpus ≠ [])
    (hd0 : 0 ≤ damping_factor) (hd1 : damping_factor ≤ 1) :
    ∀ ranks, ReachableRanks corpus damping_factor ranks →
      ∀ q ∈ keys corpus,
        (1 - damping_factor) / ((keys corpus).length : ℚ) ≤ valAt ranks q := by
  have hN : (0 : ℚ) < ((keys corpus).length : ℚ) := by
    cases corpus with
    | nil => exact absurd rfl hne
    | cons kv rest =>
      simp only [keys, List.length_map, List.length_cons]
      push_cast
      positivity
  intro ranks h
  induction h with
  | init =>
    intro q hq
    have hv : valAt (initial_ranks corpus) q = 1 / ((keys corpus).length : ℚ) := by
      simp [initial_ranks, valAt, dictGet_map_self, hq]
    rw [hv]
    gcongr
    linarith
  | @step prev updated h1 h2 ih =>
    intro q hq
    have hkeys := reachable_keys corpus damping_factor
      (fun kv hkv => (hwf.2 kv hkv).2) _ h1
    obtain ⟨r, hr, hk, hg, _⟩ := iterate_iteration_spec corpus damping_factor prev
      (fun kv hkv => (hwf.2 kv hkv).2) (fun p hp => by rw [hkeys]; exact hp)
    rw [h2] at hr
    injection hr with hr
    rw [hr]
    have hval : valAt r q = (1 - damping_factor) / ((keys corpus).length : ℚ) +
        ((keys corpus).map
          (fun p => pageContribution corpus prev damping_factor p q)).sum := by
      simp [valAt, hg q hq]
    rw [hval]
    have hsum0 : 0 ≤ ((keys corpus).map
        (fun p => pageContribution corpus prev damping_factor p q)).sum := by
      apply List.sum_nonneg
      intro x hx
      obtain ⟨p, hp, rfl⟩ := List.mem_map.mp hx
      apply pageContribution_nonneg corpus prev damping_factor p q hd0
      exact le_trans (div_nonneg (by linarith) hN.le) (ih p hp)
    linarith

theorem abs_list_sum_le (l : List ℚ) : |l.sum| ≤ (l.map (fun x => |x|)).sum := by
  induction l with
  | nil => simp
  | cons x xs ih =>
    simp only [List.sum_cons, List.map_cons]
    calc |x + xs.sum| ≤ |x| + |xs.sum| := abs_add _ _
    _ ≤ |x| + (xs.map (fun x => |x|)).sum := by linarith

theorem list_sum_map_sub (l : List Node) (f g : Node → ℚ) :
    (l.map f).sum - (l.map g).sum = (l.map (fun p => f p - g p)).sum := by
  induction l with
  | nil => simp
  | cons x xs ih =>
    simp only [List.map_cons, List.sum_cons]
    rw [← ih]
    ring

/-- One update step is Lipschitz in the previous ranks: pointwise, the
update changes by at most `damping * N * m` when the inputs differ
pointwise by at most `m`. -/
theorem iteration_abs_le (corpus : Corpus) (damping_factor : ℚ)
    (x y ux uy : Dist)
    (hwfsub : ∀ kv ∈ corpus, ∀ l ∈ kv.2, l ∈ keys corpus)
    (hd0 : 0 ≤ damping_factor)
    (hx : iterate_pagerank_iteration corpus damping_factor x = .ok ux)
    (hy : iterate_pagerank_iteration corpus damping_factor y = .ok uy)
    (hxk : ∀ p ∈ keys corpus, p ∈ keys x) (hyk : ∀ p ∈ keys corpus, p ∈ keys y)
    (m : ℚ) (hm : ∀ p ∈ keys corpus, |valAt x p - valAt y p| ≤ m) :
    ∀ q ∈ keys corpus, |valAt ux q - valAt uy q| ≤
      damping_factor * ((keys corpus).length : ℚ) * m := by
  intro q hq
  obtain ⟨rx, hrx, _, hgx, _⟩ := iterate_iteration_spec corpus damping_factor x hwfsub hxk
  obtain ⟨ry, hry, _, hgy, _⟩ := iterate_iteration_spec corpus damping_factor y hwfsub hyk
  rw [hx] at hrx
  injection hrx with hrx
  rw [hy] at hry
  injection hry with hry
  subst hrx
  subst hry
  have hvx : valAt ux q = (1 - damping_factor) / ((keys corpus).length : ℚ) +
      ((keys corpus).map (fun p => pageContribution corpus x damping_factor p q)).sum := by
    simp [valAt, hgx q hq]
  have hvy : valAt uy q = (1 - damping_factor) / ((keys corpus).length : ℚ) +
      ((keys corpus).map (fun p => pageContribution corpus y damping_factor p q)).sum := by
    simp [valAt, hgy q hq]
  rw [hvx, hvy]
  have hdiff : (1 - damping_factor) / ((keys corpus).length : ℚ) +
      ((keys corpus).map (fun p => pageContribution corpus x damping_factor p q)).sum -
      ((1 - damping_factor) / ((keys corpus).length : ℚ) +
      ((keys corpus).map (fun p => pageContribution corpus y damping_factor p q)).sum) =
      ((keys corpus).map (fun p => pageContribution corpus x damping_factor p q -
        pageContribution corpus y damping_factor p q)).sum := by
    rw [← list_sum_map_sub]
    ring
  rw [hdiff]
  calc |((keys corpus).map (fun p => pageContribution corpus x damping_factor p q -
        pageContribution corpus y damping_factor p q)).sum|
      ≤ (((keys corpus).map (fun p => pageContribution corpus x damping_factor p q -
        pageContribution corpus y damping_factor p q)).map (fun v => |v|)).sum :=
        abs_list_sum_le _
    _ = ((keys corpus).map (fun p => |pageContribution corpus x damping_factor p q -
        pageContribution corpus y damping_factor p q|)).sum := by
        rw [List.map_map]
        rfl
    _ ≤ ((keys corpus).map (fun _ => damping_factor * m)).sum := by
        apply List.sum_le_sum
        intro p hp
        obtain ⟨w, hw0, hw1, hw⟩ := pageContribution_weight corpus damping_factor p q hp
        rw [hw x, hw y]
        have heq : w * (damping_factor * valAt x p) - w * (damping_factor * valAt y p) =
            w * damping_factor * (valAt x p - valAt y p) := by ring
        rw [heq, abs_mul]
        have habsw : |w * damping_factor| = w * damping_factor := abs_of_nonneg (by positivity)
        rw [habsw]
        calc w * damping_factor * |valAt x p - valAt y p|
            ≤ w * damping_factor * m := by
              have h0 : 0 ≤ w * damping_factor := by positivity
              exact mul_le_mul_of_nonneg_left (hm p hp) h0
          _ ≤ 1 * damping_factor * m := by
              have hm0 : 0 ≤ m := le_trans (abs_nonneg _) (hm q hq)
              have := mul_le_mul_of_nonneg_right
                (mul_le_mul_of_nonneg_right hw1 hd0) hm0
              simpa using this
          _ = damping_factor * m := by ring
    _ = ((keys corpus).length : ℚ) * (damping_factor * m) := sum_map_const_rat _ _
    _ = damping_factor * ((keys corpus).length : ℚ) * m := by ring

theorem dictGet_le_mass (v : List (Node × ℕ)) (p : Node) (c : ℕ)
    (h : dictGet v p = some c) : c ≤ mass v := by
  induction v with
  | nil => simp [dictGet] at h
  | cons kv rest ih =>
    simp only [dictGet] at h
    by_cases hk : kv.1 = p
    · rw [if_pos hk] at h
      injection h with h
      subst h
      simp only [mass, List.map_cons, List.sum_cons]
      exact Nat.le_add_right _ _
    · rw [if_neg hk] at h
      have := ih h
      simp only [mass, List.map_cons, List.sum_cons] at this ⊢
      omega

theorem randomChoice_mem (population : List Node) (idx : ℕ)
    (hne : population ≠ []) :
    ∃ x, randomChoice population idx = .ok x ∧ x ∈ population := by
  cases population with
  | nil => exact absurd rfl hne
  | cons a as =>
    refine ⟨(a :: as).getD (idx % (a :: as).length) a, rfl, ?_⟩
    have hlt : idx % (a :: as).length < (a :: as).length :=
      Nat.mod_lt _ (by simp)
    rw [List.getD_eq_getElem?_getD, List.getElem?_eq_getElem hlt]
    exact List.getElem_mem hlt

/-- The sampling loop always succeeds on a well-formed non-empty corpus,
keeps one counter per page, and adds exactly one visit per step. -/
theorem sampleLoop_spec (corpus : Corpus) (damping_factor : ℚ) (oracle : ℕ → ℕ)
    (hsub : ∀ kv ∈ corpus, ∀ l ∈ kv.2, l ∈ keys corpus)
    (hne : corpus ≠ []) :
    ∀ (steps : ℕ) (visits : List (Node × ℕ)) (page : Node) (i : ℕ),
      keys visits = keys corpus → page ∈ keys corpus →
      ∃ visits2,
        sampleLoop corpus damping_factor oracle steps visits page i = .ok visits2 ∧
        keys visits2 = keys corpus ∧ mass visits2 = mass visits + steps := by
  intro steps
  induction steps with
  | zero =>
    intro visits page i hk hp
    exact ⟨visits, rfl, hk, by simp⟩
  | succ steps ih =>
    intro visits page i hk hp
    obtain ⟨v1, h1, hk1, hg1⟩ := dictModE_spec visits page (fun v => v + 1)
      (by rw [hk]; exact hp)
    have hm1 : mass v1 = mass visits + 1 := dictModE_mass h1
    obtain ⟨links, hpl⟩ := (dictGet_isSome_iff_mem corpus page).mpr hp
    obtain ⟨t, ht, htk, htg⟩ := transition_model_ok corpus page damping_factor links hpl
      (fun l hl => hsub (page, links) (dictGet_mem hpl) l hl)
    have hw : ∃ ws, mapE (keys corpus) (fun p => dictGetE t p) = .ok ws := by
      apply mapE_ok_exists
      intro p hpk
      obtain ⟨v, hv⟩ := (dictGet_isSome_iff_mem t p).mpr (by rw [htk]; exact hpk)
      exact ⟨v, by simp [dictGetE, hv]⟩
    obtain ⟨ws, hws⟩ := hw
    have hkeysne : keys corpus ≠ [] := by
      cases corpus with
      | nil => exact absurd rfl hne
      | cons kv rest => simp [keys]
    obtain ⟨next, hnext, hnextmem⟩ := randomChoice_mem (keys corpus) (oracle i) hkeysne
    obtain ⟨v2, h2, hk2, hm2⟩ := ih v1 next (i + 1) (hk1.trans hk) hnextmem
    refine ⟨v2, ?_, hk2, ?_⟩
    · simp only [sampleLoop, h1, ok_bind, ht, hws, hnext]
      exact h2
    · rw [hm2, hm1]
      omega

/-! ### Concrete corpora used by witnesses and counterexamples -/

def nA : Node := "a"

def nB : Node := "b"

def nC : Node := "c"

def nD : Node := "d"

/-- The two-page cycle a -> b -> a from §8 of the spec. -/
def twoCycle : Corpus := [(nA, [nB]), (nB, [nA])]

/-- A four-page corpus with a dangling page `a`, two pages linking to it
and one page `d` linking to both of those. -/
def hubCorpus : Corpus := [(nA, []), (nB, [nA]), (nC, [nA]), (nD, [nB, nC])]

/-- Composite experiment built from the source functions: run
`iterate_pagerank` to convergence, apply one more update step to the
returned ranks and measure the greatest difference this extra step makes. -/
def extra_step_difference (corpus : Corpus) (damping_factor : ℚ) (fuel : ℕ) :
    Except PyErr (Option ℚ) := do
  match ← iterate_pagerank corpus damping_factor fuel with
  | none => pure none
  | some r => do
    let r2 ← iterate_pagerank_iteration corpus damping_factor r
    let m ← greatest_difference r r2
    pure (some m)

/-! ### Claims -/

/-- C6, counterexample: on the empty graph, `transition_model` raises the
very same missing-key error (Python `KeyError`, the InvalidNode failure)
as it does for a node absent from a non-empty graph; there is no distinct
InvalidGraph failure for the empty graph. -/
theorem pagerank_C6_counterexample :
    transition_model ([] : Corpus) nA (85/100) = .error (.keyError nA) ∧
    transition_model [(nB, [])] nA (85/100) = .error (.keyError nA) := by
  constructor <;> rfl

/-- C6, amended: `transition_model` fails with the missing-key error
(Python `KeyError`, naming the queried node) whenever the node is not a
key of the graph; since an empty graph has no keys, every query on the
empty graph fails with that same missing-node error — not with a separate
InvalidGraph error — and in both cases no distribution is returned. -/
theorem pagerank_C6_amended :
    (∀ (page : Node) (damping_factor : ℚ),
      transition_model ([] : Corpus) page damping_factor = .error (.keyError page)) ∧
    (∀ (corpus : Corpus) (page : Node) (damping_factor : ℚ),
      dictGet corpus page = none →
      transition_model corpus page damping_factor = .error (.keyError page)) := by
  have h2 : ∀ (corpus : Corpus) (page : Node) (damping_factor : ℚ),
      dictGet corpus page = none →
      transition_model corpus page damping_factor = .error (.keyError page) := by
    intro corpus page damping_factor h
    simp only [transition_model, dictGetE, h, error_bind]
  exact ⟨fun page damping_factor => h2 [] page damping_factor rfl, h2⟩

/-- C6, witness: the amended theorem applied to a concrete graph and a
concrete absent node. -/
theorem pagerank_C6_witness :
    transition_model [(nB, [])] nC 1 = .error (.keyError nC) :=
  pagerank_C6_amended.2 [(nB, [])] nC 1 (by decide)

/-- C7, counterexample: `iterate_pagerank` performs no validation: on the
empty graph it terminates normally returning the empty mapping (no
InvalidGraph failure), and damping = 1 is accepted (no InvalidArgument
failure), terminating on the two-page cycle with the uniform
distribution. -/
theorem pagerank_C7_counterexample :
    iterate_pagerank ([] : Corpus) (85/100) 1 = .ok (some []) ∧
    iterate_pagerank twoCycle 1 1 = .ok (some [(nA, 1/2), (nB, 1/2)]) := by
  constructor
  · show iterateLoop [] (85/100) (initial_ranks []) 1 = .ok (some [])
    have hit : iterate_pagerank_iteration [] (85/100) [] = .ok [] := rfl
    have hgd : greatest_difference [] [] = .ok 0 := rfl
    show iterateLoop [] (85/100) [] 1 = .ok (some [])
    simp only [iterateLoop, hit, ok_bind, hgd]
    rw [if_pos (by norm_num)]
    rfl
  · norm_num +decide [iterate_pagerank, iterateLoop, initial_ranks,
      iterate_pagerank_iteration, iterate_body, greatest_difference,
      transition_model, dictGetE, dictGet, keys, dictModE, List.foldlM,
      Except.bind, Except.pure, Except.map, bind, pure, Monad.toBind,
      Except.instMonad, List.isEmpty, abs_eq_max_neg, max_def,
      twoCycle, nA, nB]

/-- C7, amended: `iterate_pagerank` does no input validation.  For every
damping factor it returns the empty mapping on the empty graph (instead
of an InvalidGraph error), and damping outside [0,1) is accepted: with
damping = 1 the two-page cycle terminates after one iteration with the
uniform distribution (instead of an InvalidArgument error). -/
theorem pagerank_C7_amended :
    ∀ (damping_factor : ℚ) (fuel : ℕ),
      iterate_pagerank ([] : Corpus) damping_factor (fuel + 1) = .ok (some []) ∧
      iterate_pagerank twoCycle 1 (fuel + 1) = .ok (some [(nA, 1/2), (nB, 1/2)]) := by
  intro damping_factor fuel
  constructor
  · show iterateLoop [] damping_factor (initial_ranks []) (fuel + 1) = .ok (some [])
    have hit : iterate_pagerank_iteration [] damping_factor [] = .ok [] := rfl
    have hgd : greatest_difference [] [] = .ok 0 := rfl
    show iterateLoop [] damping_factor [] (fuel + 1) = .ok (some [])
    simp only [iterateLoop, hit, ok_bind, hgd]
    rw [if_pos (by norm_num)]
    rfl
  · show iterateLoop twoCycle 1 (initial_ranks twoCycle) (fuel + 1) = .ok (some [(nA, 1/2), (nB, 1/2)])
    have hit : iterate_pagerank_iteration twoCycle 1 (initial_ranks twoCycle) =
        .ok [(nA, 1/2), (nB, 1/2)] := by
      norm_num +decide [initial_ranks, iterate_pagerank_iteration, iterate_body,
        dictGetE, dictGet, keys, dictModE, List.foldlM, Except.bind, Except.pure,
        Except.map, bind, pure, Monad.toBind, Except.instMonad, List.isEmpty,
        twoCycle, nA, nB]
    have hgd : greatest_difference (initial_ranks twoCycle) [(nA, 1/2), (nB, 1/2)] =
        .ok 0 := by
      norm_num +decide [initial_ranks, greatest_difference, dictGetE, dictGet, keys,
        List.foldlM, Except.bind, Except.pure, bind, pure, Monad.toBind,
        Except.instMonad, abs_eq_max_neg, max_def, twoCycle, nA, nB]
    simp only [iterateLoop, hit, ok_bind, hgd]
    rw [if_pos (by norm_num)]
    rfl

/-- C8, counterexample: with n = -1 < 1 on a valid two-page graph,
`sample_pagerank` does not fail with any error: it returns an all-zero
mapping (an invalid distribution whose values sum to 0, not 1). -/
theorem pagerank_C8_counterexample :
    sample_pagerank twoCycle (85/100) (-1) (fun _ => 0) = .ok [(nA, 0), (nB, 0)] := by
  norm_num +decide [sample_pagerank, sampleLoop, randomChoice, mapE, dictGetE,
    dictGet, keys, dictModE, List.foldlM, Except.bind, Except.pure, Except.map,
    bind, pure, Monad.toBind, Except.instMonad, Int.toNat, twoCycle, nA, nB]

/-- C8, amended: `sample_pagerank` does no validation of its own.  On the
empty graph it fails with the index error raised by drawing the starting
page from an empty population; with n = 0 it fails with the
division-by-zero error from the final count / n division; but for n < 0
it does not fail at all: it returns the mapping sending every page to 0,
which is not a valid distribution. -/
theorem pagerank_C8_amended :
    (∀ (damping_factor : ℚ) (n : ℤ) (oracle : ℕ → ℕ),
      sample_pagerank ([] : Corpus) damping_factor n oracle = .error .indexError) ∧
    (∀ (corpus : Corpus) (damping_factor : ℚ) (oracle : ℕ → ℕ), corpus ≠ [] →
      sample_pagerank corpus damping_factor 0 oracle = .error .zeroDivisionError) ∧
    (∀ (corpus : Corpus) (damping_factor : ℚ) (n : ℤ) (oracle : ℕ → ℕ),
      corpus ≠ [] → n < 0 →
      sample_pagerank corpus damping_factor n oracle =
        .ok ((keys corpus).map (fun p => (p, (0 : ℚ))))) := by
  refine ⟨?_, ?_, ?_⟩
  · intro damping_factor n oracle
    rfl
  · intro corpus damping_factor oracle hne
    cases corpus with
    | nil => exact absurd rfl hne
    | cons kv rest =>
      obtain ⟨start, hstart, _⟩ := randomChoice_mem (keys (kv :: rest)) (oracle 0)
        (by simp [keys])
      have hloop : sampleLoop (kv :: rest) damping_factor oracle (Int.toNat 0)
          ((keys (kv :: rest)).map (fun p => (p, 0))) start 1 =
          .ok ((keys (kv :: rest)).map (fun p => (p, 0))) := rfl
      simp only [sample_pagerank, hstart, ok_bind, hloop]
      simp
  · intro corpus damping_factor n oracle hne hn
    cases corpus with
    | nil => exact absurd rfl hne
    | cons kv rest =>
      obtain ⟨start, hstart, _⟩ := randomChoice_mem (keys (kv :: rest)) (oracle 0)
        (by simp [keys])
      have htn : Int.toNat n = 0 := Int.toNat_of_nonpos (le_of_lt hn)
      have hloop : sampleLoop (kv :: rest) damping_factor oracle 0
          ((keys (kv :: rest)).map (fun p => (p, 0))) start 1 =
          .ok ((keys (kv :: rest)).map (fun p => (p, 0))) := rfl
      have hmap : mapE (keys (kv :: rest)) (fun p => do
          let c ← dictGetE ((keys (kv :: rest)).map (fun p => (p, (0 : ℕ)))) p
          pure (p, (c : ℚ) / (n : ℚ))) =
          .ok ((keys (kv :: rest)).map (fun p => (p, (0 : ℚ)))) := by
        apply mapE_ok_of_forall
        intro p hp
        have hg : dictGet ((keys (kv :: rest)).map (fun p => (p, (0 : ℕ)))) p = some 0 := by
          rw [dictGet_map_self, if_pos hp]
        simp only [dictGetE, hg, ok_bind, pure_eq_ok, Nat.cast_zero, zero_div]
      simp only [sample_pagerank, hstart, ok_bind, htn, hloop, ok_bind]
      rw [if_neg (by exact fun hc => by rw [hc] at hn; exact absurd hn (by norm_num))]
      exact hmap

/-- C8, witness: the amended theorem applied at a concrete graph,
damping and negative sample count. -/
theorem pagerank_C8_witness :
    sample_pagerank twoCycle 1 (-2) (fun _ => 0) =
      .ok ((keys twoCycle).map (fun p => (p, (0 : ℚ)))) :=
  pagerank_C8_amended.2.2 twoCycle 1 (-2) (fun _ => 0) (by decide) (by decide)

/-- Adjacency list of a page (total accessor; equals the dict entry for
every key of the corpus). -/
def linksOf (corpus : Corpus) (p : Node) : List Node :=
  (dictGet corpus p).getD []

/-- C1: on a non-empty graph whose adjacency sets contain only graph
keys, for a node that is a key and any damping in [0,1]: if the node has
L > 0 outbound links, `transition_model` assigns each of the N graph
nodes (1 - damping)/N, plus damping/L more for each linked-to node; if
the node has no outbound links it assigns exactly 1/N to every node,
regardless of damping. -/
theorem pagerank_C1 (corpus : Corpus) (page : Node) (damping_factor : ℚ)
    (hwf : WellFormed corpus) (hne : corpus ≠ [])
    (hd : 0 ≤ damping_factor ∧ damping_factor ≤ 1)
    (links : List Node) (hpl : dictGet corpus page = some links) :
    ∃ dist, transition_model corpus page damping_factor = .ok dist ∧
      keys dist = keys corpus ∧
      ∀ q ∈ keys corpus, dictGet dist q = some
        (if links.isEmpty then 1 / ((keys corpus).length : ℚ)
         else (1 - damping_factor) / ((keys corpus).length : ℚ) +
           (if q ∈ links then damping_factor / (links.length : ℚ) else 0)) := by
  obtain ⟨t, ht, htk, htg⟩ := transition_model_ok corpus page damping_factor links hpl
    (fun l hl => (hwf.2 (page, links) (dictGet_mem hpl)).2 l hl)
  have hnodup : links.Nodup := (hwf.2 (page, links) (dictGet_mem hpl)).1
  refine ⟨t, ht, htk, ?_⟩
  intro q hq
  rw [htg q, if_pos hq]
  congr 1
  cases hemp : links.isEmpty
  case true => rfl
  case false =>
    congr 1
    by_cases hql : q ∈ links
    · rw [if_pos hql, List.count_eq_one_of_mem hnodup hql]
      push_cast
      ring
    · rw [if_neg hql, List.count_eq_zero_of_not_mem hql]
      push_cast
      ring

/-- C1, witness: the theorem applied to the concrete four-page corpus at
its page with two outbound links. -/
theorem pagerank_C1_witness :
    ∃ dist, transition_model hubCorpus nD (85/100) = .ok dist ∧
      keys dist = keys hubCorpus ∧
      ∀ q ∈ keys hubCorpus, dictGet dist q = some
        (if ([nB, nC] : List Node).isEmpty then 1 / ((keys hubCorpus).length : ℚ)
         else (1 - 85/100) / ((keys hubCorpus).length : ℚ) +
           (if q ∈ ([nB, nC] : List Node) then
             (85/100) / (([nB, nC] : List Node).length : ℚ) else 0)) :=
  pagerank_C1 hubCorpus nD (85/100) (by decide) (by decide) (by norm_num)
    [nB, nC] (by decide)

/-- C2: one update step of the iterative estimator computes, for every
node q: the base (1 - damping)/N, plus damping * rank[p] / k from every
node p whose outbound set of size k contains q, plus
damping * rank[p] / N from every node p with an empty outbound set. -/
theorem pagerank_C2 (corpus : Corpus) (damping_factor : ℚ) (previous_ranks : Dist)
    (hwf : WellFormed corpus) (hne : corpus ≠ [])
    (hd : 0 ≤ damping_factor ∧ damping_factor < 1)
    (hprev : ∀ p ∈ keys corpus, p ∈ keys previous_ranks) :
    ∃ upd, iterate_pagerank_iteration corpus damping_factor previous_ranks = .ok upd ∧
      keys upd = keys corpus ∧
      ∀ q ∈ keys corpus, dictGet upd q = some
        ((1 - damping_factor) / ((keys corpus).length : ℚ) +
         ((keys corpus).map (fun p =>
            if (linksOf corpus p).isEmpty then
              damping_factor * (valAt previous_ranks p / ((keys corpus).length : ℚ))
            else if q ∈ linksOf corpus p then
              damping_factor * (valAt previous_ranks p / ((linksOf corpus p).length : ℚ))
            else 0)).sum) := by
  obtain ⟨upd, hupd, hk, hg, _⟩ := iterate_iteration_spec corpus damping_factor
    previous_ranks (fun kv hkv => (hwf.2 kv hkv).2) hprev
  refine ⟨upd, hupd, hk, ?_⟩
  intro q hq
  rw [hg q hq]
  congr 2
  apply congrArg List.sum
  apply List.map_congr_left
  intro p hp
  obtain ⟨links, hpl⟩ := (dictGet_isSome_iff_mem corpus p).mpr hp
  obtain ⟨rank, hpr⟩ := (dictGet_isSome_iff_mem previous_ranks p).mpr (hprev p hp)
  have hlinks : linksOf corpus p = links := by simp [linksOf, hpl]
  have hrank : valAt previous_ranks p = rank := by simp [valAt, hpr]
  have hnodup : links.Nodup := (hwf.2 (p, links) (dictGet_mem hpl)).1
  rw [hlinks, hrank]
  simp only [pageContribution, hpl, hpr]
  cases hemp : links.isEmpty
  case true =>
    rw [if_pos rfl, if_pos rfl, List.count_eq_one_of_mem hwf.1 hq]
    push_cast
    ring
  case false =>
    rw [if_neg Bool.false_ne_true, if_neg Bool.false_ne_true]
    by_cases hql : q ∈ links
    · rw [if_pos hql, List.count_eq_one_of_mem hnodup hql]
      push_cast
      ring
    · rw [if_neg hql, List.count_eq_zero_of_not_mem hql]
      push_cast
      ring

/-- C2, witness: the theorem applied to the concrete four-page corpus
and a concrete previous rank dictionary. -/
theorem pagerank_C2_witness :
    ∃ upd, iterate_pagerank_iteration hubCorpus (85/100)
        [(nA, 1), (nB, 0), (nC, 0), (nD, 0)] = .ok upd ∧
      keys upd = keys hubCorpus ∧
      ∀ q ∈ keys hubCorpus, dictGet upd q = some
        ((1 - 85/100) / ((keys hubCorpus).length : ℚ) +
         ((keys hubCorpus).map (fun p =>
            if (linksOf hubCorpus p).isEmpty then
              (85/100) * (valAt [(nA, (1:ℚ)), (nB, 0), (nC, 0), (nD, 0)] p /
                ((keys hubCorpus).length : ℚ))
            else if q ∈ linksOf hubCorpus p then
              (85/100) * (valAt [(nA, (1:ℚ)), (nB, 0), (nC, 0), (nD, 0)] p /
                ((linksOf hubCorpus p).length : ℚ))
            else 0)).sum) :=
  pagerank_C2 hubCorpus (85/100) [(nA, 1), (nB, 0), (nC, 0), (nD, 0)]
    (by decide) (by decide) (by norm_num) (by decide)

/-- C3: the iterative estimator is mass-conserving in exact arithmetic:
a step maps a rank dictionary summing to 1 to one summing to 1; every
rank dictionary the loop ever holds sums to 1; and any returned
distribution sums to 1. -/
theorem pagerank_C3 (corpus : Corpus) (damping_factor : ℚ)
    (hwf : WellFormed corpus) (hne : corpus ≠ [])
    (hd : 0 ≤ damping_factor ∧ damping_factor < 1) :
    (∀ previous_ranks upd, keys previous_ranks = keys corpus →
      mass previous_ranks = 1 →
      iterate_pagerank_iteration corpus damping_factor previous_ranks = .ok upd →
      mass upd = 1) ∧
    (∀ ranks, ReachableRanks corpus damping_factor ranks → mass ranks = 1) ∧
    (∀ r, IterateReturns corpus damping_factor r → mass r = 1) := by
  have hsub : ∀ kv ∈ corpus, ∀ l ∈ kv.2, l ∈ keys corpus :=
    fun kv hkv => (hwf.2 kv hkv).2
  refine ⟨?_, reachable_mass corpus damping_factor hwf hne, ?_⟩
  · intro prev upd hk hmass hstep
    obtain ⟨r, hr, _, _, hm⟩ := iterate_iteration_spec corpus damping_factor prev hsub
      (fun p hp => by rw [hk]; exact hp)
    rw [hstep] at hr
    injection hr with hr
    rw [hr, hm hne, show keys corpus = keys prev from hk.symm,
      sum_valAt_keys prev (by rw [hk]; exact hwf.1), hmass]
    ring
  · intro r hret
    obtain ⟨fuel, hfuel⟩ := hret
    exact reachable_mass corpus damping_factor hwf hne r
      (iterateLoop_sound corpus damping_factor fuel _ r hfuel .init).1

/-- C3, witness: the theorem applied at the two-page cycle with damping
0.85. -/
theorem pagerank_C3_witness :
    (∀ previous_ranks upd, keys previous_ranks = keys twoCycle →
      mass previous_ranks = 1 →
      iterate_pagerank_iteration twoCycle (85/100) previous_ranks = .ok upd →
      mass upd = 1) ∧
    (∀ ranks, ReachableRanks twoCycle (85/100) ranks → mass ranks = 1) ∧
    (∀ r, IterateReturns twoCycle (85/100) r → mass r = 1) :=
  pagerank_C3 twoCycle (85/100) (by decide) (by decide) (by norm_num)

/-- C4: `iterate_pagerank` starts every node at 1/N, and it returns `r`
exactly when the loop relation of §4.3 holds from that initial
dictionary: repeat the update step, stop exactly when the greatest
absolute difference between the old and updated values is strictly below
1/1000, and return the updated (post-step) dictionary. -/
theorem pagerank_C4 (corpus : Corpus) (damping_factor : ℚ)
    (hwf : WellFormed corpus) (hne : corpus ≠ [])
    (hd : 0 ≤ damping_factor ∧ damping_factor < 1) :
    initial_ranks corpus =
      (keys corpus).map (fun p => (p, 1 / ((keys corpus).length : ℚ))) ∧
    ∀ r, IterateReturns corpus damping_factor r ↔
      IterateSpec corpus damping_factor (initial_ranks corpus) r := by
  refine ⟨rfl, fun r => ⟨?_, ?_⟩⟩
  · rintro ⟨fuel, hfuel⟩
    exact iterateLoop_to_spec corpus damping_factor fuel _ r hfuel
  · intro hspec
    exact iterateLoop_of_spec corpus damping_factor _ r hspec

/-- C4, witness: the theorem applied at the two-page cycle with damping
0.85. -/
theorem pagerank_C4_witness :
    initial_ranks twoCycle =
      (keys twoCycle).map (fun p => (p, 1 / ((keys twoCycle).length : ℚ))) ∧
    ∀ r, IterateReturns twoCycle (85/100) r ↔
      IterateSpec twoCycle (85/100) (initial_ranks twoCycle) r :=
  pagerank_C4 twoCycle (85/100) (by decide) (by decide) (by norm_num)

/-- C10: every rank dictionary the iterative estimator ever holds — and
in particular the returned distribution — gives every graph node at
least (1 - damping)/N, hence strictly positive rank for damping < 1. -/
theorem pagerank_C10 (corpus : Corpus) (damping_factor : ℚ)
    (hwf : WellFormed corpus) (hne : corpus ≠ [])
    (hd : 0 ≤ damping_factor ∧ damping_factor < 1) :
    (∀ ranks, ReachableRanks corpus damping_factor ranks → ∀ q ∈ keys corpus,
      (1 - damping_factor) / ((keys corpus).length : ℚ) ≤ valAt ranks q) ∧
    (∀ r, IterateReturns corpus damping_factor r → ∀ q ∈ keys corpus,
      (1 - damping_factor) / ((keys corpus).length : ℚ) ≤ valAt r q ∧
        0 < valAt r q) := by
  have hN : (0 : ℚ) < ((keys corpus).length : ℚ) := by
    cases corpus with
    | nil => exact absurd rfl hne
    | cons kv rest =>
      simp only [keys, List.length_map, List.length_cons]
      push_cast
      positivity
  have hlow := reachable_lower_bound corpus damping_factor hwf hne hd.1 (le_of_lt hd.2)
  refine ⟨hlow, ?_⟩
  intro r hret q hq
  obtain ⟨fuel, hfuel⟩ := hret
  have hreach := (iterateLoop_sound corpus damping_factor fuel _ r hfuel .init).1
  have hb := hlow r hreach q hq
  exact ⟨hb, lt_of_lt_of_le (div_pos (by linarith [hd.2]) hN) hb⟩

/-- C10, witness: the theorem applied at the two-page cycle with damping
0.85. -/
theorem pagerank_C10_witness :
    (∀ ranks, ReachableRanks twoCycle (85/100) ranks → ∀ q ∈ keys twoCycle,
      (1 - 85/100) / ((keys twoCycle).length : ℚ) ≤ valAt ranks q) ∧
    (∀ r, IterateReturns twoCycle (85/100) r → ∀ q ∈ keys twoCycle,
      (1 - 85/100) / ((keys twoCycle).length : ℚ) ≤ valAt r q ∧
        0 < valAt r q) :=
  pagerank_C10 twoCycle (85/100) (by decide) (by decide) (by norm_num)

set_option maxHeartbeats 4000000 in
/-- C9, counterexample: on the four-page corpus with damping 9/10 the
loop converges (fuel 7 suffices), but one further update step applied to
the returned distribution still changes some value by more than the
convergence threshold: the greatest difference of the extra step is
26990294067/26214400000000, which exceeds 1/1000. -/
theorem pagerank_C9_counterexample :
    extra_step_difference hubCorpus (9/10) 7 =
      .ok (some (26990294067 / 26214400000000 : ℚ)) ∧
    (1/1000 : ℚ) < 26990294067 / 26214400000000 := by
  constructor
  · norm_num +decide [extra_step_difference, iterate_pagerank, iterateLoop,
      initial_ranks, iterate_pagerank_iteration, iterate_body,
      greatest_difference, dictGetE, dictGet, keys, dictModE, List.foldlM,
      Except.bind, Except.pure, Except.map, bind, pure, Monad.toBind,
      Except.instMonad, List.isEmpty, abs_eq_max_neg, max_def, hubCorpus,
      nA, nB, nC, nD]
  · norm_num

/-- C9, amended: one extra update step applied to the distribution
returned by `iterate_pagerank` changes no node's value by more than
damping * N * 0.001 (N the number of graph nodes) — not by more than
0.001 itself, which the counterexample refutes. -/
theorem pagerank_C9_amended (corpus : Corpus) (damping_factor : ℚ)
    (hwf : WellFormed corpus) (hne : corpus ≠ [])
    (hd : 0 ≤ damping_factor ∧ damping_factor < 1)
    (r : Dist) (hret : IterateReturns corpus damping_factor r) :
    ∃ r2, iterate_pagerank_iteration corpus damping_factor r = .ok r2 ∧
      ∀ q ∈ keys corpus, |valAt r2 q - valAt r q| ≤
        damping_factor * ((keys corpus).length : ℚ) * (1 / 1000) := by
  have hsub : ∀ kv ∈ corpus, ∀ l ∈ kv.2, l ∈ keys corpus :=
    fun kv hkv => (hwf.2 kv hkv).2
  obtain ⟨fuel, hfuel⟩ := hret
  obtain ⟨hreach, prev, difference, hprevreach, hstep, hgd, hlt⟩ :=
    iterateLoop_sound corpus damping_factor fuel _ r hfuel .init
  have hkr : keys r = keys corpus := reachable_keys corpus damping_factor hsub r hreach
  have hkp : keys prev = keys corpus :=
    reachable_keys corpus damping_factor hsub prev hprevreach
  obtain ⟨r2, hr2, hk2, hg2, _⟩ := iterate_iteration_spec corpus damping_factor r hsub
    (fun p hp => by rw [hkr]; exact hp)
  refine ⟨r2, hr2, ?_⟩
  intro q hq
  obtain ⟨hd0m, hdall⟩ := greatest_difference_le prev r difference hgd
  have hm : ∀ p ∈ keys corpus, |valAt r p - valAt prev p| ≤ difference := by
    intro p hp
    rw [abs_sub_comm]
    exact hdall p (by rw [hkp]; exact hp)
  have hbound := iteration_abs_le corpus damping_factor r prev r2 r hsub hd.1 hr2 hstep
    (fun p hp => by rw [hkr]; exact hp) (fun p hp => by rw [hkp]; exact hp)
    difference hm q hq
  calc |valAt r2 q - valAt r q|
      ≤ damping_factor * ((keys corpus).length : ℚ) * difference := hbound
    _ ≤ damping_factor * ((keys corpus).length : ℚ) * (1 / 1000) := by
        exact mul_le_mul_of_nonneg_left (le_of_lt hlt)
          (mul_nonneg hd.1 (Nat.cast_nonneg _))

/-- C9, witness: the amended theorem applied at the two-page cycle with
damping 0.85, whose loop returns the uniform distribution with fuel 1. -/
theorem pagerank_C9_witness :
    ∃ r2, iterate_pagerank_iteration twoCycle (85/100) [(nA, 1/2), (nB, 1/2)] = .ok r2 ∧
      ∀ q ∈ keys twoCycle, |valAt r2 q - valAt [(nA, (1:ℚ)/2), (nB, 1/2)] q| ≤
        (85/100) * ((keys twoCycle).length : ℚ) * (1 / 1000) :=
  pagerank_C9_amended twoCycle (85/100) (by decide) (by decide) (by norm_num)
    [(nA, 1/2), (nB, 1/2)]
    ⟨1, by
      norm_num +decide [iterate_pagerank, iterateLoop, initial_ranks,
        iterate_pagerank_iteration, iterate_body, greatest_difference, dictGetE,
        dictGet, keys, dictModE, List.foldlM, Except.bind, Except.pure,
        Except.map, bind, pure, Monad.toBind, Except.instMonad, List.isEmpty,
        abs_eq_max_neg, max_def, twoCycle, nA, nB]⟩

theorem list_sum_div (l : List Node) (f : Node → ℚ) (c : ℚ) :
    (l.map (fun p => f p / c)).sum = (l.map f).sum / c := by
  induction l with
  | nil => simp
  | cons x xs ih =>
    simp only [List.map_cons, List.sum_cons, ih]
    ring

theorem list_sum_natCast (l : List Node) (f : Node → ℕ) :
    (l.map (fun p => ((f p : ℕ) : ℚ))).sum = (((l.map f).sum : ℕ) : ℚ) := by
  induction l with
  | nil => simp
  | cons x xs ih =>
    simp only [List.map_cons, List.sum_cons, ih]
    push_cast
    ring

/-- C5: for n >= 1 on a non-empty well-formed graph, `sample_pagerank`
succeeds for every oracle and returns one entry per graph node whose
value is that node's visit count divided by n; the counts total exactly
n, so in exact arithmetic the values sum to 1 and each lies in [0,1]. -/
theorem pagerank_C5 (corpus : Corpus) (damping_factor : ℚ) (n : ℤ) (oracle : ℕ → ℕ)
    (hwf : WellFormed corpus) (hne : corpus ≠ [])
    (hd : 0 ≤ damping_factor ∧ damping_factor ≤ 1) (hn : 1 ≤ n) :
    ∃ visits : List (Node × ℕ),
      keys visits = keys corpus ∧
      ((mass visits : ℕ) : ℤ) = n ∧
      sample_pagerank corpus damping_factor n oracle =
        .ok ((keys corpus).map (fun p => (p, ((valAt visits p : ℕ) : ℚ) / (n : ℚ)))) ∧
      mass ((keys corpus).map (fun p => (p, ((valAt visits p : ℕ) : ℚ) / (n : ℚ)))) = 1 ∧
      ∀ kv ∈ (keys corpus).map (fun p => (p, ((valAt visits p : ℕ) : ℚ) / (n : ℚ))),
        0 ≤ kv.2 ∧ kv.2 ≤ 1 := by
  have hsub : ∀ kv ∈ corpus, ∀ l ∈ kv.2, l ∈ keys corpus :=
    fun kv hkv => (hwf.2 kv hkv).2
  have hkeysne : keys corpus ≠ [] := by
    cases corpus with
    | nil => exact absurd rfl hne
    | cons kv rest => simp [keys]
  have hnQ : (0 : ℚ) < (n : ℚ) := by
    have : (0 : ℤ) < n := lt_of_lt_of_le zero_lt_one hn
    exact_mod_cast this
  obtain ⟨start, hstart, hstartmem⟩ := randomChoice_mem (keys corpus) (oracle 0) hkeysne
  obtain ⟨visits, hloop, hkv, hmassv⟩ := sampleLoop_spec corpus damping_factor oracle
    hsub hne n.toNat ((keys corpus).map (fun p => (p, 0))) start 1
    (keys_map_self _ _) hstartmem
  have hmass0 : mass ((keys corpus).map (fun p => (p, (0 : ℕ)))) = 0 := by
    rw [mass_map_fn]
    simp
  rw [hmass0, zero_add] at hmassv
  have hmassZ : ((mass visits : ℕ) : ℤ) = n := by
    rw [hmassv]
    exact Int.toNat_of_nonneg (by linarith)
  have hmassQ : ((mass visits : ℕ) : ℚ) = (n : ℚ) := by
    rw [hmassv]
    have hnn : (0 : ℤ) ≤ n := by linarith
    exact_mod_cast Int.toNat_of_nonneg hnn
  refine ⟨visits, hkv, hmassZ, ?_, ?_, ?_⟩
  · have hn0 : n ≠ 0 := by
      intro h
      rw [h] at hn
      norm_num at hn
    have hfin : mapE (keys corpus) (fun p => do
        let c ← dictGetE visits p
        pure (p, (c : ℚ) / (n : ℚ))) =
        .ok ((keys corpus).map (fun p => (p, ((valAt visits p : ℕ) : ℚ) / (n : ℚ)))) := by
      apply mapE_ok_of_forall
      intro p hp
      obtain ⟨c, hc⟩ := (dictGet_isSome_iff_mem visits p).mpr (by rw [hkv]; exact hp)
      have hcv : valAt visits p = c := by simp [valAt, hc]
      rw [hcv]
      simp only [dictGetE, hc, ok_bind, pure_eq_ok]
    simp only [sample_pagerank, hstart, ok_bind, hloop]
    rw [if_neg hn0]
    exact hfin
  · rw [mass_map_fn, list_sum_div, list_sum_natCast]
    rw [show (keys corpus).map (fun p => valAt visits p) =
      (keys visits).map (fun p => valAt visits p) from by rw [hkv]]
    rw [sum_valAt_keys visits (by rw [hkv]; exact hwf.1), hmassQ]
    exact div_self (ne_of_gt hnQ)
  · intro kv hkv2
    obtain ⟨p, hp, rfl⟩ := List.mem_map.mp hkv2
    constructor
    · exact div_nonneg (Nat.cast_nonneg _) (le_of_lt hnQ)
    · rw [div_le_one hnQ]
      obtain ⟨c, hc⟩ := (dictGet_isSome_iff_mem visits p).mpr (by rw [hkv]; exact hp)
      have hcv : valAt visits p = c := by simp [valAt, hc]
      rw [hcv, ← hmassQ]
      exact_mod_cast dictGet_le_mass visits p c hc

/-- C5, witness: the theorem applied at the two-page cycle, damping 0.85,
n = 3 and the constant-zero oracle. -/
theorem pagerank_C5_witness :
    ∃ visits : List (Node × ℕ),
      keys visits = keys twoCycle ∧
      ((mass visits : ℕ) : ℤ) = 3 ∧
      sample_pagerank twoCycle (85/100) 3 (fun _ => 0) =
        .ok ((keys twoCycle).map (fun p => (p, ((valAt visits p : ℕ) : ℚ) / ((3 : ℤ) : ℚ)))) ∧
      mass ((keys twoCycle).map (fun p => (p, ((valAt visits p : ℕ) : ℚ) / ((3 : ℤ) : ℚ)))) = 1 ∧
      ∀ kv ∈ (keys twoCycle).map (fun p => (p, ((valAt visits p : ℕ) : ℚ) / ((3 : ℤ) : ℚ))),
        0 ≤ kv.2 ∧ kv.2 ≤ 1 :=
  pagerank_C5 twoCycle (85/100) 3 (fun _ => 0) (by decide) (by decide)
    (by norm_num) (by norm_num)

end PageRank
